import Mathlib

/-!
Verification of the notebookmaker pipeline (Python sources under
`src/notebookmaker/`): the analysis data model and dependency orderer
(`models.py`), the notebook generator, cell-markup parser and import
consolidator (`generation.py`), and the chunk aggregator (`analysis.py`).

Python machine integers are unbounded, so `int` is modelled as `Int`;
Python lists as `List`; `str` as `String`.  Python `str.strip()` is
modelled by `pyStrip` below (dropping `Char.isWhitespace` characters from
both ends; the inputs considered contain no `\x0c`/`\x0b` or non-ASCII
whitespace, on which Python's notion of whitespace is wider).
-/

set_option maxRecDepth 20000

namespace NotebookMaker

/-- A single line-split on the newline character, at the character-list
level: the semantics of Python `text.split("\n")`.  Never returns `[]`. -/
def splitNlCh : List Char → List (List Char)
  | [] => [[]]
  | c :: cs =>
    match splitNlCh cs with
    | [] => [[]]
    | l :: ls => if c = '\n' then [] :: l :: ls else (c :: l) :: ls

/-- Joining with newline at the character-list level: Python `"\n".join`. -/
def joinNlCh : List (List Char) → List Char
  | [] => []
  | [l] => l
  | l :: ls => l ++ '\n' :: joinNlCh ls

/-- Python `text.split("\n")`. -/
def splitLines (s : String) : List String :=
  (splitNlCh s.data).map String.mk

/-- Python `"\n".join(lines)`. -/
def joinNl : List String → String
  | [] => ""
  | [l] => l
  | l :: ls => l ++ "\n" ++ joinNl ls

/-- Python `"\n\n".join(texts)` (used between generated section texts). -/
def joinNlNl : List String → String
  | [] => ""
  | [l] => l
  | l :: ls => l ++ "\n\n" ++ joinNlNl ls

/-- Python `s.strip()` (whitespace characters at both ends removed). -/
def pyStrip (s : String) : String :=
  String.mk (((s.data.dropWhile Char.isWhitespace).reverse.dropWhile
    Char.isWhitespace).reverse)

/-- Python `s.startswith(pre)`. -/
def pyStartsWith (s pre : String) : Bool :=
  pre.data.isPrefixOf s.data

/-- Python `s[n:]` for a nonnegative index `n`. -/
def pyDrop (s : String) (n : Nat) : String :=
  String.mk (s.data.drop n)

/-- Lexicographic (code-point) comparison of character lists: the order
Python's `sorted` uses on strings. -/
def lexLe (a b : List Char) : Bool :=
  match a, b with
  | [], _ => true
  | _ :: _, [] => false
  | c :: cs, d :: ds => if c = d then lexLe cs ds else decide (c < d)

/-- Python `a <= b` on strings. -/
def strLe (a b : String) : Prop := lexLe a.data b.data = true

instance : DecidableRel strLe := fun a b =>
  inferInstanceAs (Decidable (lexLe a.data b.data = true))

/-! ## Data model (`models.py`) -/

/-- `models.CodeSnippet`. -/
structure CodeSnippet where
  code : String
  language : String
  line_number : Option Int
deriving DecidableEq, Repr

/-- `models.Equation`. -/
structure Equation where
  latex : String
  description : Option String
deriving DecidableEq, Repr

/-- `models.Section`: a section of lecture content identified in Phase 1
analysis.  Pydantic additionally validates `1 <= priority <= 10`
(`ge=1, le=10`); where it matters this appears as an explicit predicate. -/
structure Section where
  section_id : String
  title : String
  pages : List Int
  has_code : Bool
  code_snippets : List CodeSnippet
  equations : List Equation
  concepts : List String
  dependencies : List String
  priority : Int
deriving DecidableEq, Repr

/-- `models.LectureAnalysis`.  `metadata : dict[str, Any]` is modelled as
an association list of string pairs; the code under verification only ever
copies it verbatim. -/
structure LectureAnalysis where
  lecture_title : String
  total_pages : Int
  sections : List Section
  metadata : List (String × String)
deriving DecidableEq, Repr

/-- Sort key used by `get_code_sections`:
`s.pages[0] if s.pages else 0`. -/
def pageKey (s : Section) : Int := s.pages.headD 0

/-- The sort relation of `get_code_sections` (Python `sorted` with
`key=lambda s: s.pages[0] if s.pages else 0`; `sorted` is stable, as is
`List.insertionSort`). -/
def pageLe (s t : Section) : Prop := pageKey s ≤ pageKey t

instance : DecidableRel pageLe := fun s t =>
  inferInstanceAs (Decidable (pageKey s ≤ pageKey t))

instance : IsTotal Section pageLe := ⟨fun s t => Int.le_total (pageKey s) (pageKey t)⟩

instance : IsTrans Section pageLe := ⟨fun _ _ _ h h2 => Int.le_trans h h2⟩

/-- `LectureAnalysis.get_code_sections` (models.py lines 79-95): filter
sections with `has_code` and `priority >= min_priority`, then stably sort
by first page number. -/
def LectureAnalysis.get_code_sections (a : LectureAnalysis)
    (min_priority : Int := 5) : List Section :=
  (a.sections.filter
    (fun s => s.has_code && decide (s.priority ≥ min_priority))).insertionSort
      pageLe

/-- The dict comprehension `{s.section_id: s for s in code_sections}`
(models.py line 105), kept as the underlying association list. -/
def sectionDict (cs : List Section) : List (String × Section) :=
  cs.map fun s => (s.section_id, s)

/-- Lookup in a Python dict built by successive assignment: a later binding
of the same key overrides an earlier one. -/
def dictLookup (dict : List (String × Section)) (k : String) : Option Section :=
  dict.foldl (fun acc p => if p.1 = k then some p.2 else acc) none

/-- Keys of the section dict. -/
def keysOf (dict : List (String × Section)) : List String :=
  dict.map Prod.fst

/-- The mutable state of `get_dependency_order`'s recursive `visit`:
the `visited` id set (as a list) and the `ordered` output list. -/
structure VState where
  visited : List String
  ordered : List Section
deriving DecidableEq, Repr

/-- The `for dep_id in section.dependencies: visit(dep_id)` loop, for an
arbitrary body `f`; threading the state, short-circuiting on `none`. -/
def visitList (f : String → VState → Option VState) :
    List String → VState → Option VState
  | [], st => some st
  | d :: ds, st =>
    match f d st with
    | none => none
    | some st2 => visitList f ds st2

/-- The recursive `visit` of `LectureAnalysis.get_dependency_order`
(models.py lines 111-121), with an explicit call-depth fuel: `none` models
a call that would recurse forever (`get_dependency_orderO_total` below
proves the fuel is never exhausted at the fuel budget the top level
supplies).  A visited id, or an id absent from the dict, returns at once;
otherwise the id is marked visited, the dependencies are visited first,
and the section is appended. -/
def visitF : Nat → List (String × Section) → String → VState → Option VState
  | 0, _, _, _ => none
  | fuel + 1, dict, sid, st =>
    if sid ∈ st.visited then some st
    else
      match dictLookup dict sid with
      | none => some st
      | some sec =>
        match visitList (visitF fuel dict) sec.dependencies
            ⟨sid :: st.visited, st.ordered⟩ with
        | none => none
        | some st2 => some ⟨st2.visited, st2.ordered ++ [sec]⟩

/-- `LectureAnalysis.get_dependency_order` (models.py lines 97-127):
code sections at the default threshold 5, visited in order; `none` models
non-termination of the recursion (never reached, see
`get_dependency_orderO_total`). -/
def get_dependency_orderO (a : LectureAnalysis) : Option (List Section) :=
  let cs := a.get_code_sections 5
  let dict := sectionDict cs
  match visitList (visitF (dict.length + 1) dict) (cs.map Section.section_id)
      ⟨[], []⟩ with
  | none => none
  | some st => some st.ordered

/-- Total wrapper around `get_dependency_orderO`; justified by
`get_dependency_orderO_total`, which shows the `Option` is always `some`
(the `[]` default is dead code). -/
def LectureAnalysis.get_dependency_order (a : LectureAnalysis) : List Section :=
  (get_dependency_orderO a).getD []

/-! ## Notebook cells and the cell markup parser (`generation.py`) -/

/-- Cell kind of an nbformat cell. -/
inductive CellKind where
  | markdown
  | code
deriving DecidableEq, Repr

/-- An nbformat notebook cell, reduced to the fields the code under
verification reads and writes: its kind and its `source` text. -/
inductive Cell where
  | markdown (source : String)
  | code (source : String)
deriving DecidableEq, Repr

/-- The `source` text of a cell. -/
def Cell.source : Cell → String
  | .markdown s => s
  | .code s => s

/-- Whether a cell is a code cell. -/
def Cell.isCode : Cell → Bool
  | .markdown _ => false
  | .code _ => true

/-- The per-line transformation `save_current_cell` applies to a markdown
cell's buffered lines (generation.py lines 269-278): a `"# "` prefix is
dropped, any other line starting with `"#"` becomes empty, and a line
without the comment marker is kept verbatim. -/
def markdownRender (line : String) : String :=
  if pyStartsWith line "# " then pyDrop line 2
  else if pyStartsWith line "#" then ""
  else line

/-- Parser state of `_parse_llm_response_to_notebook`'s line loop: emitted
cells, the kind of the currently open cell (if any), and its buffer. -/
structure PState where
  cells : List Cell
  ctype : Option CellKind
  buf : List String
deriving DecidableEq, Repr

/-- `save_current_cell` (generation.py lines 262-283): flush the open
buffer as a cell.  Nothing is emitted when no cell is open or the buffer
is empty. -/
def saveCurrentCell (st : PState) : List Cell :=
  match st.ctype, st.buf with
  | none, _ => st.cells
  | some _, [] => st.cells
  | some .markdown, buf =>
    st.cells ++ [Cell.markdown (joinNl (buf.map markdownRender))]
  | some .code, buf => st.cells ++ [Cell.code (joinNl buf)]

/-- One iteration of the `for line in lines` loop (generation.py lines
285-298): a line whose stripped form equals a cell marker flushes the open
cell and opens a new one; any other line is buffered when a cell is open
and dropped otherwise. -/
def parseStep (st : PState) (line : String) : PState :=
  if pyStrip line = "# %% [markdown]" then
    ⟨saveCurrentCell st, some CellKind.markdown, []⟩
  else if pyStrip line = "# %%" then
    ⟨saveCurrentCell st, some CellKind.code, []⟩
  else if st.ctype.isSome then ⟨st.cells, st.ctype, st.buf ++ [line]⟩
  else st

/-- The error markdown cell emitted when parsing produced no cells
(generation.py lines 304-310). -/
def errorCellMsg : String :=
  "# Error\n\nFailed to parse notebook content.\n\nExpected percent-formatted Python with `# %%` markers."

/-- The marker-scanning core of `_parse_llm_response_to_notebook`
(generation.py lines 256-310): run the line loop, flush the last cell,
and fall back to a single markdown error cell when no cell resulted. -/
def parseCellsRaw (lines : List String) : List Cell :=
  saveCurrentCell (lines.foldl parseStep ⟨[], none, []⟩)

/-- `_parse_llm_response_to_notebook` (generation.py lines 236-330),
returning the notebook's cell list (the fixed kernelspec metadata the
Python adds is not modelled).  The initial `llm_response.strip()` is
applied; the fenced-code-block extraction step is modelled for responses
containing no triple-backtick fence, on which the extraction regex
matches nothing — every theorem below evaluates it on fence-free text. -/
def parse_llm_response_to_notebook (llm_response : String) : List Cell :=
  let content := pyStrip llm_response
  let cells := parseCellsRaw (splitLines content)
  if cells = [] then [Cell.markdown errorCellMsg] else cells

/-! ## Import consolidation (`generation.py`) -/

/-- Whether a line matches `re.match(r"^\s*(import|from)\s+", line)`
(generation.py line 213): after leading whitespace, the word `import` or
`from` followed by at least one whitespace character. -/
def matchesImport (line : String) : Bool :=
  let t := line.data.dropWhile Char.isWhitespace
  (("import".data.isPrefixOf t &&
      match t.drop 6 with
      | c :: _ => c.isWhitespace
      | [] => false) ||
    ("from".data.isPrefixOf t &&
      match t.drop 4 with
      | c :: _ => c.isWhitespace
      | [] => false))

/-- The import lines collected from one cell (code cells only). -/
def cellImports : Cell → List String
  | .code src => (splitLines src).filter matchesImport
  | .markdown _ => []

/-- The first pass of `_consolidate_imports` rewriting one cell: a code
cell keeps only its non-import lines. -/
def stripImports : Cell → Cell
  | .code src => .code (joinNl ((splitLines src).filter (fun l => !matchesImport l)))
  | .markdown src => .markdown src

/-- `_consolidate_imports` (generation.py lines 197-233): collect every
code cell's import lines into a set, remove them from their cells,
insert a single code cell with the sorted distinct imports at the first
code cell's position when any were found, then drop every cell whose
source strips to empty.  The Python `set` plus `sorted` is modelled by
`dedup` plus a stable sort under the same total order. -/
def consolidate_imports (cells : List Cell) : List Cell :=
  let collected := cells.flatMap cellImports
  let mutated := cells.map stripImports
  let inserted :=
    if collected.isEmpty then mutated
    else
      match cells.findIdx? Cell.isCode with
      | some i =>
        mutated.insertIdx i
          (Cell.code (joinNl (collected.dedup.insertionSort strLe)))
      | none => mutated
  inserted.filter (fun c => pyStrip c.source ≠ "")

/-! ## Notebook generation from an analysis (`generation.py`) -/

/-- The synthetic title cell (generation.py lines 378-383). -/
def titleCell (a : LectureAnalysis) : String :=
  "# %% [markdown]\n# # " ++ a.lecture_title ++
    "\n#\n# This notebook contains code-focused examples from the lecture.\n# Run each cell in order to explore the concepts.\n"

/-- The `notebook_type: Literal["instructor", "student"]` argument. -/
inductive NotebookType where
  | instructor
  | student
deriving DecidableEq, Repr

/-- `generate_notebook_from_analysis` (generation.py lines 333-420).  The
per-section LLM call `generate_notebook_for_section` is the parameter
`gen`; `gen s = none` models that call raising, which the `except` clause
turns into skipping the section.  `none` models the
`ValueError("No code sections found ...")` raised when no ordered section
remains; otherwise the result is the cell list of the notebook written to
disk.  Note `get_dependency_order` ignores the `min_priority` argument and
filters at the default threshold 5. -/
def generate_notebook_from_analysis (gen : Section → Option String)
    (a : LectureAnalysis) (notebook_type : NotebookType)
    (min_priority : Int := 5) : Option (List Cell) :=
  let code_sections := a.get_code_sections min_priority
  let ordered_sections :=
    a.get_dependency_order.filter (fun s => s ∈ code_sections)
  if ordered_sections.isEmpty then none
  else
    let all_cells_text := titleCell a :: ordered_sections.filterMap gen
    let complete_notebook_text := joinNlNl all_cells_text
    let notebook := parse_llm_response_to_notebook complete_notebook_text
    let notebook :=
      if notebook_type = NotebookType.instructor then
        consolidate_imports notebook
      else notebook
    some notebook

/-! ## Chunk aggregation (`analysis.py`) -/

/-- One chunk's partial analysis, as handed to `aggregate_chunk_analyses`.
In Python this is an untyped dict read with `.get`, so each field is
optional; sections are taken as already well-typed `Section` values (their
`section_id` is the dict's `section_id` entry).  `total_pages` is whatever
page count the chunk reports; the aggregator never reads it. -/
structure ChunkResult where
  lecture_title : Option String
  total_pages : Option Int
  sections : Option (List Section)
  metadata : Option (List (String × String))
deriving DecidableEq, Repr

/-- One step of the section-collection loop (analysis.py lines 225-236):
the accumulator is `(all_sections, seen_ids)`; a section whose id was
seen is skipped (with a warning), otherwise it is appended and its id
recorded. -/
def aggStep (acc : List Section × List String) (s : Section) :
    List Section × List String :=
  if s.section_id ∈ acc.2 then acc
  else (acc.1 ++ [s], s.section_id :: acc.2)

/-- The full two-level collection loop of `aggregate_chunk_analyses`
(analysis.py lines 218-236). -/
def aggSections (chunk_results : List ChunkResult) : List Section :=
  (chunk_results.foldl (fun acc c => (c.sections.getD []).foldl aggStep acc)
    ([], [])).1

/-- `aggregate_chunk_analyses` (analysis.py lines 188-256): `none` models
the `ValueError` on empty input and the pydantic `ValidationError` when a
collected section violates the model's `1 <= priority <= 10` bound; the
title and metadata come from the first chunk (with Python `.get`
defaults), `total_pages` is the externally supplied true count. -/
def aggregate_chunk_analyses (chunk_results : List ChunkResult)
    (actual_total_pages : Int) : Option LectureAnalysis :=
  match chunk_results with
  | [] => none
  | first :: _ =>
    let all_sections := aggSections chunk_results
    if all_sections.all (fun s => decide (1 ≤ s.priority) && decide (s.priority ≤ 10)) then
      some ⟨first.lecture_title.getD "Unknown Lecture", actual_total_pages,
        all_sections, first.metadata.getD []⟩
    else none

/-! ## Dependency graph notions for the orderer -/

/-- Ids of the sections already emitted. -/
def orderedIds (st : VState) : List String := st.ordered.map Section.section_id

/-- The dependency edge of the eligible-section graph: `a` depends
directly on `b` when the dict resolves `a` to a section listing `b`. -/
def depEdge (dict : List (String × Section)) (a b : String) : Prop :=
  ∃ s, dictLookup dict a = some s ∧ b ∈ s.dependencies

/-- Direct-or-transitive dependency. -/
def Reaches (dict : List (String × Section)) (a b : String) : Prop :=
  Relation.TransGen (depEdge dict) a b

/-- Dependency-respecting order modulo back-edges: every eligible
dependency of an emitted section is emitted earlier, or reaches the
section through the dependency graph (the latter only happens inside a
cycle). -/
def TopoOK (dict : List (String × Section)) (ordered : List Section) : Prop :=
  ∀ l1 s l2, ordered = l1 ++ s :: l2 → ∀ d ∈ s.dependencies, d ∈ keysOf dict →
    d ∈ l1.map Section.section_id ∨ Reaches dict d s.section_id

/-- Invariant of the `visit` recursion, relative to the call stack `S` of
ids whose frames are in progress: `visited` is exactly the emitted ids
plus the stack, the emitted ids are distinct and disjoint from the stack,
every emitted section is the dict's section for its id, and emitted
sections respect dependencies modulo back-edges. -/
structure VisitInv (dict : List (String × Section)) (st : VState)
    (S : List String) : Prop where
  mem_visited : ∀ x, x ∈ st.visited ↔ x ∈ orderedIds st ∨ x ∈ S
  nodup_ids : (orderedIds st).Nodup
  disj_stack : ∀ x ∈ orderedIds st, x ∉ S
  lookup_eq : ∀ s ∈ st.ordered, dictLookup dict s.section_id = some s
  topo : TopoOK dict st.ordered

/-- Number of dict keys not yet visited: the measure showing the
recursion's depth is bounded. -/
def unvisited (dict : List (String × Section)) (v : List String) : Nat :=
  ((keysOf dict).filter (fun k => decide (k ∉ v))).length

/-- How one `visit` call's final state relates to its initial state:
visited ids only grow (and only by dict keys), the unvisited measure does
not increase, and the output list is only appended to. -/
structure VisitOut (dict : List (String × Section)) (st st2 : VState) : Prop where
  mono : ∀ x ∈ st.visited, x ∈ st2.visited
  sub_keys : ∀ x ∈ st2.visited, x ∈ st.visited ∨ x ∈ keysOf dict
  unvis_le : unvisited dict st2.visited ≤ unvisited dict st.visited
  ordered_ext : ∃ Δ, st2.ordered = st.ordered ++ Δ

/-! ## Concrete inputs used by the witnesses and counterexamples -/

/-- A section with only the fields the orderer inspects populated. -/
def mkSec (sid : String) (pages : List Int) (deps : List String)
    (prio : Int := 5) (hc : Bool := true) : Section :=
  ⟨sid, sid, pages, hc, [], [], [], deps, prio⟩

/-- Three eligible sections, all independent except that `c` (first by
page order) depends on `b` and `a`: document order `a, b, c`, page order
`c, a, b`, emission order `b, a, c`. -/
def exC3 : LectureAnalysis :=
  ⟨"L", 3, [mkSec "a" [2] [], mkSec "b" [3] [], mkSec "c" [1] ["b", "a"]], []⟩

/-- The spec §8 chain `A -> [], B -> [A], C -> [B]`. -/
def exABC : LectureAnalysis :=
  ⟨"L", 3, [mkSec "a" [1] [], mkSec "b" [2] ["a"], mkSec "c" [3] ["b"]], []⟩

/-- The spec §8 cyclic pair `X <-> Y`, with a dangling dependency id. -/
def exCyc : LectureAnalysis :=
  ⟨"L", 2, [mkSec "x" [1] ["y", "zzz"], mkSec "y" [2] ["x"]], []⟩

/-- One section of priority 4 with code: eligible at `min_priority = 4`. -/
def exPrio4 : LectureAnalysis :=
  ⟨"L", 1, [mkSec "s" [1] [] 4], []⟩

/-- The single-section analysis of `tests/test_generation_errors.py`. -/
def exIntro : LectureAnalysis :=
  ⟨"Sample Lecture", 1, [mkSec "intro" [1] []], []⟩

/-- Two independent eligible sections in page order. -/
def exTwo : LectureAnalysis :=
  ⟨"L", 2, [mkSec "p" [1] [], mkSec "q" [2] []], []⟩

/-- The §8 cell-markup example: one markdown block with lines `"# Title"`
and `"# "`, one code block with two lines. -/
def exMarkup : String :=
  "# %% [markdown]\n# Title\n# \n# %%\nprint(1)\nprint(2)"

/-- The §8 import-consolidation example: `"import os"` in two cells plus
`"from collections import Counter"`. -/
def exCells : List Cell :=
  [Cell.code "import os\nprint(1)",
    Cell.code "import os\nfrom collections import Counter\nprint(2)"]

/-- First chunk for the aggregation example. -/
def chunk1 : ChunkResult :=
  ⟨some "Real Title", some 3, some [mkSec "intro" [1] [], mkSec "stats" [2] []],
    some [("author", "ada")]⟩

/-- Second chunk: different title and metadata, a colliding `intro` id
(different title field), and a wrong reported page count. -/
def chunk2 : ChunkResult :=
  ⟨some "Wrong Title", some 99,
    some [⟨"intro", "other intro", [4], true, [], [], [], [], 5⟩,
      mkSec "plots" [5] []],
    some [("author", "bob")]⟩

/-! ## Theorems: string utilities -/

theorem splitNlCh_ne_nil (cs : List Char) : splitNlCh cs ≠ [] := by
  cases cs with
  | nil => simp [splitNlCh]
  | cons c cs =>
    simp only [splitNlCh]
    cases h : splitNlCh cs with
    | nil => simp
    | cons l ls =>
      by_cases hc : c = '\n' <;> simp [hc]

theorem joinNlCh_splitNlCh (cs : List Char) : joinNlCh (splitNlCh cs) = cs := by
  induction cs with
  | nil => rfl
  | cons c cs ih =>
    simp only [splitNlCh]
    cases h : splitNlCh cs with
    | nil => exact absurd h (splitNlCh_ne_nil cs)
    | cons l ls =>
      rw [h] at ih
      by_cases hc : c = '\n'
      · subst hc
        simp only [if_pos rfl]
        cases ls with
        | nil => simpa [joinNlCh] using congrArg (fun t => '\n' :: t) ih
        | cons l2 ls2 => simpa [joinNlCh] using congrArg (fun t => '\n' :: t) ih
      · simp only [if_neg hc]
        cases ls with
        | nil => simpa [joinNlCh] using congrArg (fun t => c :: t) ih
        | cons l2 ls2 => simpa [joinNlCh] using congrArg (fun t => c :: t) ih

theorem joinNl_data (ls : List String) :
    (joinNl ls).data = joinNlCh (ls.map String.data) := by
  induction ls with
  | nil => rfl
  | cons l ls ih =>
    cases ls with
    | nil => rfl
    | cons l2 ls2 =>
      simp only [joinNl, joinNlCh, List.map, String.data_append] at ih ⊢
      simp [ih]

theorem joinNl_splitLines (s : String) : joinNl (splitLines s) = s := by
  apply String.ext
  rw [joinNl_data]
  simp only [splitLines, List.map_map]
  have : (String.data ∘ String.mk) = id := rfl
  rw [this, List.map_id]
  exact joinNlCh_splitNlCh s.data

/-! ## Theorems: C4 — import consolidator with no import lines -/

theorem cellImports_eq_nil (c : Cell) (h : c.isCode = true →
    ∀ l ∈ splitLines c.source, matchesImport l = false) :
    cellImports c = [] := by
  cases c with
  | markdown s => rfl
  | code s =>
    simp only [cellImports, List.filter_eq_nil_iff]
    intro l hl
    simp [h rfl l hl]

theorem stripImports_eq_self (c : Cell) (h : c.isCode = true →
    ∀ l ∈ splitLines c.source, matchesImport l = false) :
    stripImports c = c := by
  cases c with
  | markdown s => rfl
  | code s =>
    simp only [stripImports]
    rw [List.filter_eq_self.mpr, joinNl_splitLines]
    intro l hl
    simp [h rfl l hl]

theorem flatMap_cellImports_eq_nil (cells : List Cell)
    (h : ∀ c ∈ cells, c.isCode = true →
      ∀ l ∈ splitLines c.source, matchesImport l = false) :
    cells.flatMap cellImports = [] := by
  induction cells with
  | nil => rfl
  | cons c cs ih =>
    simp only [List.flatMap_cons]
    rw [cellImports_eq_nil c (h c (by simp)),
      ih (fun c hc => h c (by simp [hc]))]
    rfl

theorem map_stripImports_eq (cells : List Cell)
    (h : ∀ c ∈ cells, c.isCode = true →
      ∀ l ∈ splitLines c.source, matchesImport l = false) :
    cells.map stripImports = cells := by
  induction cells with
  | nil => rfl
  | cons c cs ih =>
    simp only [List.map_cons]
    rw [stripImports_eq_self c (h c (by simp)),
      ih (fun c hc => h c (by simp [hc]))]

/-- C4 (corrected): when no code-cell line matches the import pattern, the
consolidator inserts nothing and rewrites nothing, but it still drops the
cells whose source is empty or all-whitespace — the cell sequence is
returned unchanged only up to that final filter. -/
theorem C4_no_imports_only_blank_filter (cells : List Cell)
    (h : ∀ c ∈ cells, c.isCode = true →
      ∀ l ∈ splitLines c.source, matchesImport l = false) :
    consolidate_imports cells =
      cells.filter (fun c => pyStrip c.source ≠ "") := by
  have hcol := flatMap_cellImports_eq_nil cells h
  have hmut := map_stripImports_eq cells h
  simp only [consolidate_imports, hcol, hmut, List.isEmpty_nil, if_true]

/-- C4 counterexample to the claim as stated: a whitespace-only cell with
no import lines anywhere is dropped, so the sequence is not returned
unchanged. -/
theorem C4_counterexample :
    consolidate_imports [Cell.markdown "   "] = [] ∧
      ([] : List Cell) ≠ [Cell.markdown "   "] := by
  constructor
  · decide
  · decide

/-- C4 witness: on a two-cell sequence with no import lines and no blank
cells the consolidator is the identity. -/
theorem C4_witness :
    consolidate_imports [Cell.markdown "hello", Cell.code "x = 1"] =
      [Cell.markdown "hello", Cell.code "x = 1"] := by
  have h := C4_no_imports_only_blank_filter
    [Cell.markdown "hello", Cell.code "x = 1"] (by decide)
  rw [h]
  decide

/-! ## Theorems: C10 — whitespace-surrounded markers are recognized -/

/-- C10 (confirmed): the parser compares each line to the cell markers
after stripping surrounding whitespace, so a line that is a marker
surrounded by whitespace also flushes the open cell and begins a new cell
of the marker's kind. -/
theorem C10_markers_compared_stripped (st : PState) (l : String) :
    (pyStrip l = "# %% [markdown]" →
      parseStep st l = ⟨saveCurrentCell st, some CellKind.markdown, []⟩) ∧
    (pyStrip l = "# %%" →
      parseStep st l = ⟨saveCurrentCell st, some CellKind.code, []⟩) := by
  constructor
  · intro h
    simp [parseStep, h]
  · intro h
    simp [parseStep, h]

/-- C10 witness: an indented, trailing-whitespace markdown marker flushes
an open code cell and opens a markdown cell. -/
theorem C10_witness :
    parseStep ⟨[], some CellKind.code, ["x"]⟩ "  # %% [markdown]  " =
      ⟨[Cell.code "x"], some CellKind.markdown, []⟩ :=
  ((C10_markers_compared_stripped ⟨[], some CellKind.code, ["x"]⟩
    "  # %% [markdown]  ").1 (by decide)).trans (by decide)

/-! ## Theorems: C8 — the cell markup grammar -/

/-- C8 (corrected): the parser follows the reference grammar with two
amendments — a line whose whitespace-stripped form equals a marker (not
only a line exactly equal to it) flushes the open cell and opens a new
one, and on flushing a markdown cell any line starting with `"#"` but not
`"# "` (not only the bare `"#"`) becomes an empty line.  All other
clauses hold as claimed: other lines are appended to the open cell's
buffer and discarded when none is open, `"# "` prefixes are dropped,
unprefixed lines are kept verbatim, empty buffers emit no cell, an
all-markers-missing parse yields exactly the markdown error cell — so
parsing never returns zero cells — and the §8 example yields exactly a
markdown cell `"Title\n"` and a code cell of the two lines joined by a
newline. -/
theorem C8_markup_grammar :
    (∀ (st : PState) (l : String), pyStrip l = "# %% [markdown]" →
        parseStep st l = ⟨saveCurrentCell st, some CellKind.markdown, []⟩)
  ∧ (∀ (st : PState) (l : String), pyStrip l = "# %%" →
        parseStep st l = ⟨saveCurrentCell st, some CellKind.code, []⟩)
  ∧ (∀ (st : PState) (l : String), pyStrip l ≠ "# %% [markdown]" →
        pyStrip l ≠ "# %%" →
        parseStep st l =
          if st.ctype.isSome then ⟨st.cells, st.ctype, st.buf ++ [l]⟩ else st)
  ∧ (∀ l : String, pyStartsWith l "# " = true → markdownRender l = pyDrop l 2)
  ∧ (∀ l : String, pyStartsWith l "# " = false → pyStartsWith l "#" = true →
        markdownRender l = "")
  ∧ (∀ l : String, pyStartsWith l "#" = false → markdownRender l = l)
  ∧ (∀ st : PState, st.buf = [] → saveCurrentCell st = st.cells)
  ∧ (∀ s : String, parse_llm_response_to_notebook s ≠ [])
  ∧ (∀ s : String, parseCellsRaw (splitLines (pyStrip s)) = [] →
        parse_llm_response_to_notebook s = [Cell.markdown errorCellMsg])
  ∧ parse_llm_response_to_notebook exMarkup =
      [Cell.markdown "Title\n", Cell.code "print(1)\nprint(2)"] := by
  refine ⟨fun st l h => by simp [parseStep, h],
    fun st l h => by simp [parseStep, h],
    fun st l h1 h2 => by simp [parseStep, h1, h2],
    fun l h => by simp [markdownRender, h],
    fun l h1 h2 => by simp [markdownRender, h1, h2],
    fun l h => ?_,
    fun st h => ?_, fun s => ?_, fun s h => ?_, by decide⟩
  · have h2 : pyStartsWith l "# " = false := by
      by_contra hc
      simp only [Bool.not_eq_false] at hc
      have h3 : pyStartsWith l "#" = true := by
        simp only [pyStartsWith, List.isPrefixOf_iff_prefix] at hc ⊢
        exact List.IsPrefix.trans ⟨[' '], rfl⟩ hc
      simp_all
    simp [markdownRender, h2, h]
  · cases st with
    | mk cells ctype buf =>
      subst h
      cases ctype with
      | none => rfl
      | some k => cases k <;> rfl
  · simp only [parse_llm_response_to_notebook]
    split
    · simp
    · simp_all
  · simp [parse_llm_response_to_notebook, h]

/-- C8 counterexample to the claim as stated: in
`"x\n  # %% [markdown]\n#foo"` no line is exactly a marker, so the claim
predicts the zero-cells fallback (exactly the markdown error cell); the
parser instead treats the whitespace-surrounded marker as a marker and
renders `"#foo"` as an empty markdown line. -/
theorem C8_counterexample :
    parse_llm_response_to_notebook "x\n  # %% [markdown]\n#foo" =
        [Cell.markdown ""] ∧
      Cell.markdown "" ≠ Cell.markdown errorCellMsg := by
  constructor
  · decide
  · decide

/-- C8 witness: a non-marker line is appended to the open cell's buffer. -/
theorem C8_witness :
    parseStep ⟨[], some CellKind.code, []⟩ "text" =
      ⟨[], some CellKind.code, ["text"]⟩ :=
  ((C8_markup_grammar.2.2.1 ⟨[], some CellKind.code, []⟩ "text" (by decide)
    (by decide)).trans (by decide))

/-! ## Theorems: C9 — import consolidation with imports present -/

theorem lexLe_total (a b : List Char) : lexLe a b = true ∨ lexLe b a = true := by
  induction a generalizing b with
  | nil => left; rfl
  | cons c cs ih =>
    cases b with
    | nil => right; rfl
    | cons d ds =>
      by_cases hcd : c = d
      · subst hcd
        simpa [lexLe] using ih ds
      · rcases lt_or_gt_of_ne hcd with h | h
        · left; simp [lexLe, hcd, h]
        · right
          have hdc : ¬d = c := fun e => hcd e.symm
          simp [lexLe, hdc, h]

theorem lexLe_trans (a b c : List Char) (h1 : lexLe a b = true)
    (h2 : lexLe b c = true) : lexLe a c = true := by
  induction a generalizing b c with
  | nil => rfl
  | cons x xs ih =>
    cases b with
    | nil => simp [lexLe] at h1
    | cons y ys =>
      cases c with
      | nil => simp [lexLe] at h2
      | cons z zs =>
        simp only [lexLe] at h1 h2 ⊢
        by_cases hxy : x = y <;> by_cases hyz : y = z
        · subst hxy; subst hyz
          simp only [if_pos rfl] at h1 h2 ⊢
          exact ih ys zs h1 h2
        · subst hxy
          simp only [if_pos rfl, if_neg hyz, decide_eq_true_eq] at h1 h2 ⊢
          simp [if_neg hyz, hyz, h2]
        · subst hyz
          simp only [if_neg hxy, decide_eq_true_eq] at h1
          simp [if_neg hxy, h1]
        · simp only [if_neg hxy, if_neg hyz, decide_eq_true_eq] at h1 h2
          have hxz : x < z := lt_trans h1 h2
          simp [ne_of_lt hxz, hxz]

theorem strLe_total (a b : String) : strLe a b ∨ strLe b a :=
  lexLe_total a.data b.data

theorem strLe_trans (a b c : String) (h1 : strLe a b) (h2 : strLe b c) :
    strLe a c :=
  lexLe_trans a.data b.data c.data h1 h2

theorem mem_cellImports (l : String) (c : Cell) :
    l ∈ cellImports c ↔
      c.isCode = true ∧ l ∈ splitLines c.source ∧ matchesImport l = true := by
  cases c with
  | markdown s => simp [cellImports, Cell.isCode]
  | code s => simp [cellImports, Cell.isCode, Cell.source, List.mem_filter]

/-- C9 (confirmed): when some code-cell line matches the import pattern,
the consolidator rewrites each code cell to its non-import lines, inserts
exactly one new code cell at the first code cell's position whose lines
are the distinct collected import lines sorted lexicographically, and
keeps exactly the cells whose remaining source is not all-whitespace; on
the §8 example the new leading cell has exactly the two expected lines. -/
theorem C9_import_consolidation :
    (∀ cells : List Cell,
      (∃ c ∈ cells, c.isCode = true ∧ ∃ l ∈ splitLines c.source,
        matchesImport l = true) →
      ∃ i imports, cells.findIdx? Cell.isCode = some i ∧
        consolidate_imports cells =
          ((cells.map stripImports).insertIdx i
            (Cell.code (joinNl imports))).filter
              (fun c => pyStrip c.source ≠ "") ∧
        imports.Pairwise strLe ∧ imports.Nodup ∧
        (∀ l, l ∈ imports ↔ ∃ c ∈ cells, c.isCode = true ∧
          l ∈ splitLines c.source ∧ matchesImport l = true))
  ∧ consolidate_imports exCells =
      [Cell.code "from collections import Counter\nimport os",
        Cell.code "print(1)", Cell.code "print(2)"] := by
  constructor
  · intro cells himp
    obtain ⟨c, hc, hcode, l, hl, hm⟩ := himp
    have hflat : cells.flatMap cellImports ≠ [] := by
      apply List.ne_nil_of_mem (a := l)
      exact List.mem_flatMap.mpr ⟨c, hc, (mem_cellImports l c).mpr ⟨hcode, hl, hm⟩⟩
    obtain ⟨i, hi⟩ : ∃ i, cells.findIdx? Cell.isCode = some i := by
      cases hfind : cells.findIdx? Cell.isCode with
      | none =>
        rw [List.findIdx?_eq_none_iff] at hfind
        exact absurd (hfind c hc) (by simp [hcode])
      | some i => exact ⟨i, rfl⟩
    haveI : IsTotal String strLe := ⟨strLe_total⟩
    haveI : IsTrans String strLe := ⟨strLe_trans⟩
    refine ⟨i, (cells.flatMap cellImports).dedup.insertionSort strLe, hi, ?_,
      List.sorted_insertionSort strLe _, ?_, ?_⟩
    · simp only [consolidate_imports, hi]
      rw [if_neg (by simpa [List.isEmpty_iff] using hflat)]
    · exact (List.perm_insertionSort strLe _).nodup_iff.mpr
        (List.nodup_dedup _)
    · intro l2
      rw [List.mem_insertionSort, List.mem_dedup, List.mem_flatMap]
      constructor
      · rintro ⟨c2, hc2, hmem⟩
        exact ⟨c2, hc2, (mem_cellImports l2 c2).mp hmem⟩
      · rintro ⟨c2, hc2, h3⟩
        exact ⟨c2, hc2, (mem_cellImports l2 c2).mpr h3⟩
  · decide

/-- C9 witness: the general consolidation description applies to the §8
example cells. -/
theorem C9_witness :
    ∃ i imports, exCells.findIdx? Cell.isCode = some i ∧
      consolidate_imports exCells =
        ((exCells.map stripImports).insertIdx i
          (Cell.code (joinNl imports))).filter
            (fun c => pyStrip c.source ≠ "") ∧
      imports.Pairwise strLe ∧ imports.Nodup ∧
      (∀ l, l ∈ imports ↔ ∃ c ∈ exCells, c.isCode = true ∧
        l ∈ splitLines c.source ∧ matchesImport l = true) :=
  C9_import_consolidation.1 exCells
    ⟨Cell.code "import os\nprint(1)", by decide, by decide,
      "import os", by decide, by decide⟩

/-! ## Theorems: C7 — chunk aggregation -/

theorem aggSections_eq_foldl_flatMap (cr : List ChunkResult) :
    aggSections cr =
      ((cr.flatMap (fun c => c.sections.getD [])).foldl aggStep ([], [])).1 := by
  suffices h : ∀ (cr : List ChunkResult) (acc : List Section × List String),
      cr.foldl (fun acc c => (c.sections.getD []).foldl aggStep acc) acc =
        (cr.flatMap (fun c => c.sections.getD [])).foldl aggStep acc by
    simp [aggSections, h]
  intro cr
  induction cr with
  | nil => intro acc; rfl
  | cons c cr ih =>
    intro acc
    simp only [List.foldl_cons, List.flatMap_cons, List.foldl_append]
    exact ih _

theorem aggStep_foldl_spec (l : List Section) (A : List Section)
    (seen : List String) :
    ∃ D, (l.foldl aggStep (A, seen)).1 = A ++ D ∧
      D.Sublist l ∧
      (D.map Section.section_id).Nodup ∧
      (∀ x ∈ D.map Section.section_id, x ∉ seen) ∧
      (∀ s ∈ l, s.section_id ∈ seen ∨ s.section_id ∈ D.map Section.section_id) ∧
      (∀ s ∈ D, ∃ pre suf, l = pre ++ s :: suf ∧ s.section_id ∉ seen ∧
        s.section_id ∉ pre.map Section.section_id) := by
  induction l generalizing A seen with
  | nil => exact ⟨[], by simp⟩
  | cons h l ih =>
    by_cases hmem : h.section_id ∈ seen
    · have hstep : aggStep (A, seen) h = (A, seen) := by
        simp [aggStep, hmem]
      obtain ⟨D, h1, h2, h3, h4, h5, h6⟩ := ih A seen
      rw [List.foldl_cons, hstep]
      refine ⟨D, h1, h2.cons h, h3, h4, ?_, ?_⟩
      · intro s hs
        rcases List.mem_cons.mp hs with hs | hs
        · subst hs; exact Or.inl hmem
        · exact h5 s hs
      · intro s hs
        obtain ⟨pre, suf, hps, hns, hnp⟩ := h6 s hs
        refine ⟨h :: pre, suf, by simp [hps], hns, ?_⟩
        simp only [List.map_cons, List.mem_cons, not_or]
        exact ⟨fun e => hns (e ▸ hmem), hnp⟩
    · have hstep : aggStep (A, seen) h = (A ++ [h], h.section_id :: seen) := by
        simp [aggStep, hmem]
      obtain ⟨D, h1, h2, h3, h4, h5, h6⟩ := ih (A ++ [h]) (h.section_id :: seen)
      rw [List.foldl_cons, hstep]
      refine ⟨h :: D, by simpa using h1, h2.cons₂ h, ?_, ?_, ?_, ?_⟩
      · simp only [List.map_cons, List.nodup_cons]
        refine ⟨fun hc => ?_, h3⟩
        exact h4 _ hc (by simp)
      · intro x hx
        simp only [List.map_cons, List.mem_cons] at hx
        rcases hx with hx | hx
        · exact hx ▸ hmem
        · have := h4 x hx
          simp only [List.mem_cons, not_or] at this
          exact this.2
      · intro s hs
        rcases List.mem_cons.mp hs with hs | hs
        · subst hs; simp
        · rcases h5 s hs with h7 | h7
          · rcases List.mem_cons.mp h7 with h8 | h8
            · exact Or.inr (by simp [h8])
            · exact Or.inl h8
          · exact Or.inr (by simp [h7])
      · intro s hs
        rcases List.mem_cons.mp hs with hs | hs
        · exact ⟨[], l, by simp [hs], hs ▸ hmem, by simp⟩
        · obtain ⟨pre, suf, hps, hns, hnp⟩ := h6 s hs
          simp only [List.mem_cons, not_or] at hns
          refine ⟨h :: pre, suf, by simp [hps], hns.2, ?_⟩
          simp only [List.map_cons, List.mem_cons, not_or]
          exact ⟨hns.1, hnp⟩

/-- C7 (confirmed): for a non-empty chunk list whose first chunk carries a
title and metadata and whose sections pass the model's priority bound,
aggregation returns an analysis whose title and metadata are exactly the
first chunk's, whose `total_pages` is exactly the externally supplied
count (whatever counts the chunks report), and whose section list is the
in-order concatenation of the chunks' sections with every later
occurrence of an already-seen `section_id` dropped: it is an
order-preserving subsequence covering every reported id, its ids are
distinct, and each kept section has no earlier occurrence of its id. -/
theorem C7_aggregation (cr : List ChunkResult) (first : ChunkResult)
    (rest : List ChunkResult) (N : Int) (t : String)
    (m : List (String × String))
    (hcr : cr = first :: rest)
    (ht : first.lecture_title = some t)
    (hm : first.metadata = some m)
    (hval : ∀ c ∈ cr, ∀ s ∈ c.sections.getD [],
      1 ≤ s.priority ∧ s.priority ≤ 10) :
    ∃ la, aggregate_chunk_analyses cr N = some la ∧
      la.lecture_title = t ∧ la.metadata = m ∧ la.total_pages = N ∧
      la.sections.Sublist (cr.flatMap (fun c => c.sections.getD [])) ∧
      (la.sections.map Section.section_id).Nodup ∧
      (∀ s ∈ cr.flatMap (fun c => c.sections.getD []),
        s.section_id ∈ la.sections.map Section.section_id) ∧
      (∀ s ∈ la.sections,
        ∃ pre suf, cr.flatMap (fun c => c.sections.getD []) = pre ++ s :: suf ∧
          s.section_id ∉ pre.map Section.section_id) := by
  obtain ⟨D, h1, h2, h3, _, h5, h6⟩ :=
    aggStep_foldl_spec (cr.flatMap (fun c => c.sections.getD [])) [] []
  have hsecs : aggSections cr = D := by
    rw [aggSections_eq_foldl_flatMap, h1]; rfl
  have hval2 : (aggSections cr).all
      (fun s => decide (1 ≤ s.priority) && decide (s.priority ≤ 10)) = true := by
    rw [List.all_eq_true]
    intro s hs
    rw [hsecs] at hs
    have hmem := h2.mem hs
    obtain ⟨c, hc, hsc⟩ := List.mem_flatMap.mp hmem
    obtain ⟨hp1, hp2⟩ := hval c hc s hsc
    simp [hp1, hp2]
  refine ⟨⟨t, N, D, m⟩, ?_, rfl, rfl, rfl, h2, h3, ?_, ?_⟩
  · subst hcr
    simp only [aggregate_chunk_analyses, hval2, if_true, hsecs, ht, hm,
      Option.getD_some]
    rw [if_pos (hsecs ▸ hval2)]
  · intro s hs
    rcases h5 s hs with h7 | h7
    · simp at h7
    · exact h7
  · intro s hs
    obtain ⟨pre, suf, hps, _, hnp⟩ := h6 s hs
    exact ⟨pre, suf, hps, hnp⟩

/-- C7 witness: two chunks with conflicting titles, metadata, reported
page counts and a colliding `intro` id, aggregated with true page count
7. -/
theorem C7_witness :
    ∃ la, aggregate_chunk_analyses [chunk1, chunk2] 7 = some la ∧
      la.lecture_title = "Real Title" ∧ la.metadata = [("author", "ada")] ∧
      la.total_pages = 7 ∧
      la.sections.Sublist
        ([chunk1, chunk2].flatMap (fun c => c.sections.getD [])) ∧
      (la.sections.map Section.section_id).Nodup ∧
      (∀ s ∈ [chunk1, chunk2].flatMap (fun c => c.sections.getD []),
        s.section_id ∈ la.sections.map Section.section_id) ∧
      (∀ s ∈ la.sections,
        ∃ pre suf,
          [chunk1, chunk2].flatMap (fun c => c.sections.getD []) =
            pre ++ s :: suf ∧
          s.section_id ∉ pre.map Section.section_id) :=
  C7_aggregation [chunk1, chunk2] chunk1 [chunk2] 7 "Real Title"
    [("author", "ada")] rfl rfl rfl (by decide)

/-! ## Theorems: dictionary and measure lemmas for the orderer -/

theorem dictLookup_foldl_acc (dict : List (String × Section)) (k : String)
    (acc : Option Section) :
    dict.foldl (fun acc p => if p.1 = k then some p.2 else acc) acc =
      (dictLookup dict k).elim acc some := by
  induction dict generalizing acc with
  | nil => rfl
  | cons p dict ih =>
    simp only [dictLookup, List.foldl_cons] at *
    rw [ih, ih (if p.1 = k then some p.2 else none)]
    cases hdl : dict.foldl
        (fun acc p => if p.1 = k then some p.2 else acc) none with
    | some v => simp [dictLookup, hdl]
    | none =>
      by_cases hp : p.1 = k <;> simp [dictLookup, hdl, hp]

theorem dictLookup_cons (p : String × Section) (dict : List (String × Section))
    (k : String) :
    dictLookup (p :: dict) k =
      (dictLookup dict k).elim (if p.1 = k then some p.2 else none) some := by
  simp only [dictLookup, List.foldl_cons]
  exact dictLookup_foldl_acc dict k _

theorem dictLookup_isSome_iff (dict : List (String × Section)) (k : String) :
    (dictLookup dict k).isSome = true ↔ k ∈ keysOf dict := by
  induction dict with
  | nil => simp [dictLookup, keysOf]
  | cons p dict ih =>
    rw [dictLookup_cons]
    cases hdl : dictLookup dict k with
    | some v =>
      have hk : k ∈ keysOf dict := ih.mp (by simp [hdl])
      simp only [hdl, Option.elim_some, Option.isSome_some, true_iff, keysOf,
        List.map_cons, List.mem_cons]
      exact Or.inr hk
    | none =>
      have hk : k ∉ keysOf dict := fun h => by
        have h2 := ih.mpr h
        simp [hdl] at h2
      by_cases hp : p.1 = k
      · subst hp
        simp [hdl, keysOf]
      · have hkp : ¬k = p.1 := fun e => hp e.symm
        simp only [hdl, Option.elim_none, if_neg hp, Option.isSome_none,
          Bool.false_eq_true, false_iff, keysOf, List.map_cons, List.mem_cons,
          not_or]
        exact ⟨hkp, hk⟩

theorem dictLookup_eq_none_of_not_key (dict : List (String × Section))
    (k : String) (h : k ∉ keysOf dict) : dictLookup dict k = none := by
  cases hdl : dictLookup dict k with
  | none => rfl
  | some v =>
    exact absurd ((dictLookup_isSome_iff dict k).mp (by simp [hdl])) h

theorem key_of_dictLookup_eq_some (dict : List (String × Section))
    (k : String) (v : Section) (h : dictLookup dict k = some v) :
    k ∈ keysOf dict :=
  (dictLookup_isSome_iff dict k).mp (by simp [h])

theorem mem_of_dictLookup_eq_some (dict : List (String × Section))
    (k : String) (v : Section) (h : dictLookup dict k = some v) :
    (k, v) ∈ dict := by
  induction dict with
  | nil => simp [dictLookup] at h
  | cons p dict ih =>
    rw [dictLookup_cons] at h
    cases hdl : dictLookup dict k with
    | some w =>
      rw [hdl] at h
      simp only [Option.elim_some] at h
      exact List.mem_cons_of_mem p (ih (hdl.trans h))
    | none =>
      rw [hdl] at h
      simp only [Option.elim_none] at h
      by_cases hp : p.1 = k
      · rw [if_pos hp] at h
        have : p = (k, v) := by
          cases p
          simp_all
        exact this ▸ List.mem_cons_self _ _
      · simp [if_neg hp] at h

theorem keysOf_sectionDict (cs : List Section) :
    keysOf (sectionDict cs) = cs.map Section.section_id := by
  simp [keysOf, sectionDict, List.map_map, Function.comp]

theorem sectionDict_good (cs : List Section) (k : String) (v : Section)
    (h : dictLookup (sectionDict cs) k = some v) :
    v.section_id = k ∧ v ∈ cs := by
  have hmem := mem_of_dictLookup_eq_some _ _ _ h
  simp only [sectionDict, List.mem_map] at hmem
  obtain ⟨s, hs, he⟩ := hmem
  obtain ⟨h1, h2⟩ := Prod.mk.injEq .. ▸ he
  exact ⟨h2 ▸ h1.symm ▸ rfl, h2 ▸ hs⟩

theorem dictLookup_sectionDict_of_nodup (cs : List Section)
    (hnd : (cs.map Section.section_id).Nodup) (s : Section) (hs : s ∈ cs) :
    dictLookup (sectionDict cs) s.section_id = some s := by
  induction cs with
  | nil => simp at hs
  | cons c cs ih =>
    simp only [List.map_cons, List.nodup_cons] at hnd
    have hsd : sectionDict (c :: cs) = (c.section_id, c) :: sectionDict cs := rfl
    rw [hsd, dictLookup_cons]
    rcases List.mem_cons.mp hs with rfl | hs
    · have hnone : dictLookup (sectionDict cs) s.section_id = none := by
        apply dictLookup_eq_none_of_not_key
        rw [keysOf_sectionDict]
        exact hnd.1
      rw [hnone]
      simp
    · rw [ih hnd.2 hs]
      simp

theorem length_filter_mono {α : Type} (l : List α) (p q : α → Bool)
    (h : ∀ x ∈ l, q x = true → p x = true) :
    (l.filter q).length ≤ (l.filter p).length := by
  induction l with
  | nil => simp
  | cons x t ih =>
    have iht := ih (fun y hy => h y (by simp [hy]))
    by_cases hq : q x = true
    · have hp := h x (by simp) hq
      simp only [List.filter_cons, hq, hp, if_true, List.length_cons]
      omega
    · by_cases hp : p x = true <;>
        simp only [List.filter_cons, hp, hq, if_true, if_false,
          Bool.false_eq_true, List.length_cons] <;> omega

theorem length_filter_strict {α : Type} (l : List α) (p q : α → Bool)
    (h : ∀ x ∈ l, q x = true → p x = true) (a : α) (ha : a ∈ l)
    (hpa : p a = true) (hqa : q a = false) :
    (l.filter q).length < (l.filter p).length := by
  induction l with
  | nil => simp at ha
  | cons x t ih =>
    have hmono := length_filter_mono t p q (fun y hy => h y (by simp [hy]))
    rcases List.mem_cons.mp ha with rfl | ha
    · simp only [List.filter_cons, hpa, hqa, if_true, Bool.false_eq_true,
        if_false, List.length_cons]
      omega
    · have iht := ih (fun y hy => h y (by simp [hy])) ha
      by_cases hq : q x = true
      · have hp := h x (by simp) hq
        simp only [List.filter_cons, hq, hp, if_true, List.length_cons]
        omega
      · by_cases hp : p x = true <;>
          simp only [List.filter_cons, hp, hq, if_true, if_false,
            Bool.false_eq_true, List.length_cons] <;> omega

theorem unvisited_le_of_subset (dict : List (String × Section))
    (v w : List String) (h : ∀ x ∈ v, x ∈ w) :
    unvisited dict w ≤ unvisited dict v := by
  apply length_filter_mono
  intro x _ hx
  simp only [decide_eq_true_eq] at hx ⊢
  intro hv
  exact hx (h x hv)

theorem unvisited_cons_lt (dict : List (String × Section)) (v : List String)
    (k : String) (hk : k ∈ keysOf dict) (hv : k ∉ v) :
    unvisited dict (k :: v) < unvisited dict v := by
  apply length_filter_strict _ _ _ _ k hk
  · simpa using hv
  · simp
  · intro x _ hx
    simp only [decide_eq_true_eq, List.mem_cons, not_or] at hx ⊢
    exact hx.2

theorem unvisited_le_length (dict : List (String × Section)) (v : List String) :
    unvisited dict v ≤ dict.length := by
  calc unvisited dict v ≤ (keysOf dict).length := List.length_filter_le _ _
  _ = dict.length := by simp [keysOf]

theorem visitOut_refl (dict : List (String × Section)) (st : VState) :
    VisitOut dict st st :=
  ⟨fun _ h => h, fun _ h => Or.inl h, le_refl _, ⟨[], by simp⟩⟩

theorem visitOut_trans (dict : List (String × Section)) (st1 st2 st3 : VState)
    (h1 : VisitOut dict st1 st2) (h2 : VisitOut dict st2 st3) :
    VisitOut dict st1 st3 := by
  refine ⟨fun x hx => h2.mono x (h1.mono x hx), fun x hx => ?_,
    le_trans h2.unvis_le h1.unvis_le, ?_⟩
  · rcases h2.sub_keys x hx with hx2 | hx2
    · exact h1.sub_keys x hx2
    · exact Or.inr hx2
  · obtain ⟨d1, hd1⟩ := h1.ordered_ext
    obtain ⟨d2, hd2⟩ := h2.ordered_ext
    exact ⟨d1 ++ d2, by simp [hd2, hd1]⟩

theorem append_singleton_decomp {α : Type} (A : List α) (x : α) (l1 : List α)
    (s : α) (l2 : List α) (h : A ++ [x] = l1 ++ s :: l2) :
    (l1 = A ∧ s = x ∧ l2 = []) ∨
      ∃ l2p, l2 = l2p ++ [x] ∧ A = l1 ++ s :: l2p := by
  rcases List.eq_nil_or_concat l2 with rfl | ⟨L, b, rfl⟩
  · left
    have h2 := congrArg List.reverse h
    simp only [List.reverse_append, List.reverse_cons, List.reverse_nil,
      List.nil_append, List.cons_append, List.singleton_append] at h2
    obtain ⟨hx, hA⟩ := List.cons.injEq .. ▸ h2
    exact ⟨List.reverse_injective hA.symm, hx.symm, rfl⟩
  · right
    rw [List.concat_eq_append] at h
    have h3 : A ++ [x] = (l1 ++ s :: L) ++ [b] := by
      simpa [List.append_assoc] using h
    have h2 := congrArg List.reverse h3
    simp only [List.reverse_append, List.reverse_cons, List.reverse_nil,
      List.nil_append, List.cons_append, List.singleton_append] at h2
    obtain ⟨hx, hA⟩ := List.cons.injEq .. ▸ h2
    subst hx
    refine ⟨L, by simp [List.concat_eq_append], ?_⟩
    have hA2 : A.reverse = (l1 ++ s :: L).reverse := by
      rw [hA]
      simp [List.reverse_append]
    exact List.reverse_injective hA2

/-! ## Theorems: correctness of the `visit` recursion -/

theorem orderedIds_mk (v : List String) (ordered : List Section) :
    orderedIds ⟨v, ordered⟩ = ordered.map Section.section_id := rfl

theorem visitList_spec_aux (fuel : Nat) (dict : List (String × Section))
    (S : List String)
    (IH : ∀ (sid : String) (st : VState),
      unvisited dict st.visited < fuel →
      VisitInv dict st S →
      (∀ a ∈ S, Reaches dict a sid) →
      ∃ st2, visitF fuel dict sid st = some st2 ∧ VisitOut dict st st2 ∧
        VisitInv dict st2 S ∧ (sid ∈ keysOf dict → sid ∈ st2.visited)) :
    ∀ (ds : List String) (st : VState),
      unvisited dict st.visited < fuel →
      VisitInv dict st S →
      (∀ d ∈ ds, ∀ a ∈ S, Reaches dict a d) →
      ∃ st2, visitList (visitF fuel dict) ds st = some st2 ∧
        VisitOut dict st st2 ∧ VisitInv dict st2 S ∧
        (∀ d ∈ ds, d ∈ keysOf dict → d ∈ st2.visited) := by
  intro ds
  induction ds with
  | nil =>
    intro st h1 h2 _
    exact ⟨st, rfl, visitOut_refl dict st, h2, by simp⟩
  | cons d ds ihds =>
    intro st h1 h2 h3
    obtain ⟨st1, he1, ho1, hi1, hk1⟩ := IH d st h1 h2 (h3 d (by simp))
    obtain ⟨st2, he2, ho2, hi2, hk2⟩ := ihds st1
      (lt_of_le_of_lt ho1.unvis_le h1) hi1
      (fun d2 hd2 a ha => h3 d2 (by simp [hd2]) a ha)
    refine ⟨st2, ?_, visitOut_trans dict st st1 st2 ho1 ho2, hi2, ?_⟩
    · simp [visitList, he1, he2]
    · intro d2 hd2 hkey
      rcases List.mem_cons.mp hd2 with rfl | hd2
      · exact ho2.mono _ (hk1 hkey)
      · exact hk2 d2 hd2 hkey

theorem visitF_spec (fuel : Nat) (dict : List (String × Section)) :
    ∀ (sid : String) (st : VState) (S : List String),
      (∀ k v, dictLookup dict k = some v → v.section_id = k) →
      unvisited dict st.visited < fuel →
      VisitInv dict st S →
      (∀ a ∈ S, Reaches dict a sid) →
      ∃ st2, visitF fuel dict sid st = some st2 ∧ VisitOut dict st st2 ∧
        VisitInv dict st2 S ∧ (sid ∈ keysOf dict → sid ∈ st2.visited) := by
  induction fuel with
  | zero =>
    intro sid st S _ h1 _ _
    omega
  | succ fuel ihf =>
    intro sid st S hgood h1 h2 h3
    by_cases hvis : sid ∈ st.visited
    · exact ⟨st, by simp only [visitF, if_pos hvis], visitOut_refl dict st, h2,
        fun _ => hvis⟩
    · cases hdl : dictLookup dict sid with
      | none =>
        refine ⟨st, by simp only [visitF, if_neg hvis, hdl],
          visitOut_refl dict st, h2, ?_⟩
        intro hk
        have h5 := (dictLookup_isSome_iff dict sid).mpr hk
        rw [hdl] at h5
        simp at h5
      | some sec =>
        have hk : sid ∈ keysOf dict := key_of_dictLookup_eq_some dict sid sec hdl
        have hsecid : sec.section_id = sid := hgood sid sec hdl
        have hsidS : sid ∉ S := fun hS => hvis ((h2.mem_visited sid).mpr
          (Or.inr hS))
        have hu1 : unvisited dict (sid :: st.visited) < fuel := by
          have h4 := unvisited_cons_lt dict st.visited sid hk hvis
          omega
        have hinv1 : VisitInv dict ⟨sid :: st.visited, st.ordered⟩ (sid :: S) := by
          refine ⟨?_, h2.nodup_ids, ?_, h2.lookup_eq, h2.topo⟩
          · intro x
            have hx := h2.mem_visited x
            simp only [orderedIds_mk, List.mem_cons, orderedIds] at hx ⊢
            constructor
            · rintro (rfl | hx2)
              · exact Or.inr (Or.inl rfl)
              · rcases hx.mp hx2 with h5 | h5
                · exact Or.inl h5
                · exact Or.inr (Or.inr h5)
            · rintro (h5 | rfl | h5)
              · exact Or.inr (hx.mpr (Or.inl h5))
              · exact Or.inl rfl
              · exact Or.inr (hx.mpr (Or.inr h5))
          · intro x hx
            have hxv : x ∈ st.visited := (h2.mem_visited x).mpr (Or.inl hx)
            have hxS : x ∉ S := h2.disj_stack x hx
            simp only [List.mem_cons, not_or]
            exact ⟨fun e => hvis (e ▸ hxv), hxS⟩
        have hreach : ∀ d ∈ sec.dependencies, ∀ a ∈ sid :: S,
            Reaches dict a d := by
          intro d hd a ha
          rcases List.mem_cons.mp ha with rfl | ha
          · exact Relation.TransGen.single ⟨sec, hdl, hd⟩
          · exact (h3 a ha).tail ⟨sec, hdl, hd⟩
        obtain ⟨st2, he2, ho2, hi2, hk2⟩ := visitList_spec_aux fuel dict
          (sid :: S)
          (fun sid2 st3 ha hb hc => ihf sid2 st3 (sid :: S) hgood ha hb hc)
          sec.dependencies ⟨sid :: st.visited, st.ordered⟩ hu1 hinv1 hreach
        have hsid2 : sid ∈ st2.visited := ho2.mono sid (by simp)
        have hsidNotOrd2 : sid ∉ orderedIds st2 := fun h5 =>
          (hi2.disj_stack sid h5) (by simp)
        have hordIds : orderedIds ⟨st2.visited, st2.ordered ++ [sec]⟩ =
            orderedIds st2 ++ [sid] := by
          simp [orderedIds, hsecid]
        refine ⟨⟨st2.visited, st2.ordered ++ [sec]⟩, ?_, ?_, ?_, fun _ => hsid2⟩
        · simp only [visitF, if_neg hvis, hdl, he2]
        · refine ⟨?_, ?_, ?_, ?_⟩
          · intro x hx
            exact ho2.mono x (by simp [hx])
          · intro x hx
            rcases ho2.sub_keys x hx with h5 | h5
            · rcases List.mem_cons.mp h5 with rfl | h5
              · exact Or.inr hk
              · exact Or.inl h5
            · exact Or.inr h5
          · calc unvisited dict st2.visited ≤
                unvisited dict (sid :: st.visited) := ho2.unvis_le
            _ ≤ unvisited dict st.visited :=
              unvisited_le_of_subset dict _ _ (fun x hx => by simp [hx])
          · obtain ⟨Δ, hΔ⟩ := ho2.ordered_ext
            exact ⟨Δ ++ [sec], by simp [hΔ]⟩
        · refine ⟨?_, ?_, ?_, ?_, ?_⟩
          · intro x
            have hx := hi2.mem_visited x
            rw [hordIds] at *
            simp only [List.mem_append, List.mem_singleton, List.mem_cons,
              List.not_mem_nil, or_false] at hx ⊢
            constructor
            · intro h5
              rcases hx.mp h5 with h6 | h6 | h6
              · exact Or.inl (Or.inl h6)
              · exact Or.inl (Or.inr h6)
              · exact Or.inr h6
            · rintro ((h6 | h6) | h6)
              · exact hx.mpr (Or.inl h6)
              · exact hx.mpr (Or.inr (Or.inl h6))
              · exact hx.mpr (Or.inr (Or.inr h6))
          · rw [hordIds]
            rw [List.nodup_append]
            refine ⟨hi2.nodup_ids, List.nodup_singleton sid, ?_⟩
            intro x hx
            simp only [List.mem_singleton]
            exact fun e => hsidNotOrd2 (e ▸ hx)
          · intro x hx
            rw [hordIds] at hx
            rcases List.mem_append.mp hx with h5 | h5
            · intro hS
              exact (hi2.disj_stack x h5) (by simp [hS])
            · rw [List.mem_singleton] at h5
              exact h5 ▸ hsidS
          · intro s hs
            rcases List.mem_append.mp hs with h5 | h5
            · exact hi2.lookup_eq s h5
            · rw [List.mem_singleton] at h5
              subst h5
              rw [hsecid]
              exact hdl
          · intro l1 s l2 hdec d hd hdk
            rcases append_singleton_decomp st2.ordered sec l1 s l2 hdec with
              ⟨rfl, rfl, rfl⟩ | ⟨l2p, hl2, hA⟩
            · have hdv : d ∈ st2.visited := hk2 d hd hdk
              rcases (hi2.mem_visited d).mp hdv with h5 | h5
              · exact Or.inl h5
              · rcases List.mem_cons.mp h5 with rfl | h5
                · refine Or.inr ?_
                  rw [hsecid]
                  exact Relation.TransGen.single ⟨s, hdl, hd⟩
                · refine Or.inr ?_
                  rw [hsecid]
                  exact h3 d h5
            · exact hi2.topo l1 s l2p hA d hd hdk

theorem get_dependency_orderO_spec (a : LectureAnalysis) :
    ∃ ordered, get_dependency_orderO a = some ordered ∧
      (∀ s ∈ ordered,
        dictLookup (sectionDict (a.get_code_sections 5)) s.section_id =
          some s) ∧
      (ordered.map Section.section_id).Nodup ∧
      (∀ s ∈ a.get_code_sections 5,
        s.section_id ∈ ordered.map Section.section_id) ∧
      TopoOK (sectionDict (a.get_code_sections 5)) ordered := by
  have hgood : ∀ k v,
      dictLookup (sectionDict (a.get_code_sections 5)) k = some v →
        v.section_id = k :=
    fun k v h => (sectionDict_good _ k v h).1
  have hinv0 : VisitInv (sectionDict (a.get_code_sections 5)) ⟨[], []⟩ [] := by
    refine ⟨by simp [orderedIds], by simp [orderedIds], by simp [orderedIds],
      by simp, ?_⟩
    intro l1 s l2 hdec
    simp at hdec
  have hu0 : unvisited (sectionDict (a.get_code_sections 5)) [] <
      (sectionDict (a.get_code_sections 5)).length + 1 := by
    have := unvisited_le_length (sectionDict (a.get_code_sections 5)) []
    omega
  obtain ⟨stF, heF, hoF, hiF, hkF⟩ := visitList_spec_aux
    ((sectionDict (a.get_code_sections 5)).length + 1)
    (sectionDict (a.get_code_sections 5)) []
    (fun sid st ha hb hc =>
      visitF_spec _ _ sid st [] hgood ha hb hc)
    ((a.get_code_sections 5).map Section.section_id) ⟨[], []⟩ hu0 hinv0
    (by simp)
  refine ⟨stF.ordered, ?_, hiF.lookup_eq, hiF.nodup_ids, ?_, hiF.topo⟩
  · simp only [get_dependency_orderO, heF]
  · intro s hs
    have hkey : s.section_id ∈ keysOf (sectionDict (a.get_code_sections 5)) := by
      rw [keysOf_sectionDict]
      exact List.mem_map_of_mem Section.section_id hs
    have hv := hkF s.section_id (List.mem_map_of_mem Section.section_id hs) hkey
    rcases (hiF.mem_visited s.section_id).mp hv with h5 | h5
    · exact h5
    · simp at h5

theorem get_dependency_orderO_total (a : LectureAnalysis) :
    ∃ ordered, get_dependency_orderO a = some ordered := by
  obtain ⟨ordered, h, _⟩ := get_dependency_orderO_spec a
  exact ⟨ordered, h⟩

theorem get_dependency_order_eq (a : LectureAnalysis) :
    get_dependency_orderO a = some a.get_dependency_order := by
  obtain ⟨ordered, h⟩ := get_dependency_orderO_total a
  rw [LectureAnalysis.get_dependency_order, h]
  rfl

/-- The emitted sections, under distinct eligible ids: each emitted
section is eligible, each eligible section is emitted, and the emitted
ids are distinct.  Shared backbone of the ordering claims. -/
theorem dep_order_exactly_once (a : LectureAnalysis)
    (hnd : ((a.get_code_sections 5).map Section.section_id).Nodup) :
    ∃ ordered, get_dependency_orderO a = some ordered ∧
      (∀ s ∈ ordered, s ∈ a.get_code_sections 5) ∧
      (∀ s ∈ a.get_code_sections 5, ordered.count s = 1) ∧
      TopoOK (sectionDict (a.get_code_sections 5)) ordered := by
  obtain ⟨ordered, heq, hlook, hnod, hcov, htopo⟩ := get_dependency_orderO_spec a
  have hmem : ∀ s ∈ ordered, s ∈ a.get_code_sections 5 := by
    intro s hs
    exact (sectionDict_good _ _ _ (hlook s hs)).2
  refine ⟨ordered, heq, hmem, ?_, htopo⟩
  intro s hs
  have hcnt : s ∈ ordered := by
    obtain ⟨t, ht, hts⟩ := List.mem_map.mp (hcov s hs)
    have h5 := hlook t ht
    rw [hts] at h5
    rw [dictLookup_sectionDict_of_nodup (a.get_code_sections 5) hnd s hs] at h5
    injection h5 with h6
    exact h6 ▸ ht
  exact List.count_eq_one_of_mem (List.Nodup.of_map Section.section_id hnod)
    hcnt

/-- Reaching along the dependency relation strictly decreases any rank
function that decreases across single edges: used to discharge acyclicity
for concrete graphs. -/
theorem no_cycle_of_rank (dict : List (String × Section))
    (rank : String → Nat)
    (h : ∀ a b, depEdge dict a b → rank b < rank a) :
    ∀ x, ¬Reaches dict x x := by
  have hlt : ∀ x y, Reaches dict x y → rank y < rank x := by
    intro x y hr
    induction hr with
    | single he => exact h _ _ he
    | tail _ he ih => exact lt_trans (h _ _ he) ih
  intro x hx
  exact lt_irrefl _ (hlt x x hx)

/-- A section with no resolvable dependency edge reaches nothing. -/
theorem not_reaches_of_no_edge (dict : List (String × Section)) (x : String)
    (h : ∀ y, ¬depEdge dict x y) : ∀ y, ¬Reaches dict x y := by
  intro y hr
  obtain ⟨b, hb, _⟩ := (Relation.TransGen.head'_iff).mp hr
  exact h b hb

/-! ## Theorems: the orderer when no eligible section depends on another -/

theorem visitList_dangling (fuel : Nat) (dict : List (String × Section))
    (ds : List String) (st : VState) (h : ∀ d ∈ ds, d ∉ keysOf dict) :
    visitList (visitF (fuel + 1) dict) ds st = some st := by
  induction ds with
  | nil => rfl
  | cons d ds ih =>
    have h1 : visitF (fuel + 1) dict d st = some st := by
      by_cases hv : d ∈ st.visited
      · simp only [visitF, if_pos hv]
      · simp only [visitF, if_neg hv,
          dictLookup_eq_none_of_not_key dict d (h d (by simp))]
    simp [visitList, h1, ih (fun d2 hd2 => h d2 (by simp [hd2]))]

theorem visit_one (fuel : Nat) (dict : List (String × Section)) (sid : String)
    (st : VState) (sec : Section) (hdl : dictLookup dict sid = some sec)
    (hvis : sid ∉ st.visited)
    (hdeps : ∀ d ∈ sec.dependencies, d ∉ keysOf dict) :
    visitF (fuel + 2) dict sid st =
      some ⟨sid :: st.visited, st.ordered ++ [sec]⟩ := by
  rw [visitF, if_neg hvis, hdl]
  simp only [visitList_dangling fuel dict sec.dependencies _ hdeps]

theorem visitList_nodeps (cs_all : List Section) (f : Nat)
    (hnd : (cs_all.map Section.section_id).Nodup)
    (hdeps : ∀ s ∈ cs_all, ∀ d ∈ s.dependencies,
      d ∉ keysOf (sectionDict cs_all)) :
    ∀ (suf pre : List Section) (vis : List String),
      cs_all = pre ++ suf →
      (∀ x, x ∈ vis ↔ x ∈ pre.map Section.section_id) →
      ∃ v, visitList (visitF (f + 2) (sectionDict cs_all))
        (suf.map Section.section_id) ⟨vis, pre⟩ = some ⟨v, cs_all⟩ := by
  intro suf
  induction suf with
  | nil =>
    intro pre vis hsplit hvis
    have hpre : pre = cs_all := by simpa using hsplit.symm
    exact ⟨vis, by rw [hpre]; rfl⟩
  | cons s suf ih =>
    intro pre vis hsplit hvis
    have hscs : s ∈ cs_all := hsplit ▸ (by simp)
    have hfresh : s.section_id ∉ vis := by
      rw [hvis]
      intro hsp
      have hnd2 := hnd
      rw [hsplit, List.map_append, List.nodup_append] at hnd2
      exact hnd2.2.2 hsp (by simp)
    have hlook : dictLookup (sectionDict cs_all) s.section_id = some s :=
      dictLookup_sectionDict_of_nodup cs_all hnd s hscs
    have hstep := visit_one f (sectionDict cs_all) s.section_id ⟨vis, pre⟩ s
      hlook hfresh (hdeps s hscs)
    simp only [List.map_cons, visitList, hstep]
    apply ih (pre ++ [s]) (s.section_id :: vis) (by simp [hsplit])
    intro x
    simp only [List.mem_cons, hvis x, List.map_append, List.mem_append,
      List.map_cons, List.map_nil, List.mem_singleton, List.not_mem_nil,
      or_false]
    tauto

theorem dep_order_no_deps (a : LectureAnalysis)
    (hnd : ((a.get_code_sections 5).map Section.section_id).Nodup)
    (hdeps : ∀ s ∈ a.get_code_sections 5, ∀ d ∈ s.dependencies,
      d ∉ (a.get_code_sections 5).map Section.section_id) :
    get_dependency_orderO a = some (a.get_code_sections 5) := by
  have hdeps2 : ∀ s ∈ a.get_code_sections 5, ∀ d ∈ s.dependencies,
      d ∉ keysOf (sectionDict (a.get_code_sections 5)) := by
    intro s hs d hd
    rw [keysOf_sectionDict]
    exact hdeps s hs d hd
  cases hcs : a.get_code_sections 5 with
  | nil =>
    simp only [get_dependency_orderO, hcs]
    rfl
  | cons c cs =>
    rw [hcs] at hdeps2 hnd
    obtain ⟨v, hv⟩ := visitList_nodeps (c :: cs) cs.length hnd hdeps2
      (c :: cs) [] [] rfl (by simp)
    have hlen : (sectionDict (c :: cs)).length + 1 = cs.length + 2 := by
      simp [sectionDict]
    simp only [get_dependency_orderO, hcs, hlen, hv]

/-! ## Theorems: C3 — what order the orderer actually uses -/

/-- C3 (corrected): `get_code_sections` orders the eligible sections by
ascending first page number (a section with no pages keyed as page 0),
not by original document position; the sort is stable, so a filtered list
already in page order — in particular one whose first-page keys are all
equal — is returned in original relative order; and when no eligible
section lists an eligible section as a dependency, the dependency orderer
emits exactly this page-sorted list.  (A dependency of a later section
can still be emitted ahead of independent earlier sections, see
`C3_counterexample`.) -/
theorem C3_page_order_not_document_order :
    (∀ (a : LectureAnalysis) (m : Int),
      (a.get_code_sections m).Pairwise pageLe)
  ∧ (∀ (a : LectureAnalysis) (m : Int),
      (a.sections.filter
        (fun s => s.has_code && decide (s.priority ≥ m))).Pairwise pageLe →
      a.get_code_sections m =
        a.sections.filter (fun s => s.has_code && decide (s.priority ≥ m)))
  ∧ (∀ a : LectureAnalysis,
      ((a.get_code_sections 5).map Section.section_id).Nodup →
      (∀ s ∈ a.get_code_sections 5, ∀ d ∈ s.dependencies,
        d ∉ (a.get_code_sections 5).map Section.section_id) →
      get_dependency_orderO a = some (a.get_code_sections 5)) := by
  refine ⟨?_, ?_, dep_order_no_deps⟩
  · intro a m
    exact List.sorted_insertionSort pageLe _
  · intro a m h
    simp only [LectureAnalysis.get_code_sections]
    exact List.Sorted.insertionSort_eq h

/-- C3 counterexample to the claim as stated: in `exC3` the sections `a`
(pages `[2]`) and `b` (pages `[3]`) are mutually independent — neither
reaches anything through the dependency graph — and appear in document
order `a` before `b`, yet the orderer emits `b` before `a`, because `c`
(first page 1) is ordered first by page number and pulls in its
dependencies `b`, `a` in its own dependency-list order. -/
theorem C3_counterexample :
    exC3.sections =
      [mkSec "a" [2] [], mkSec "b" [3] [], mkSec "c" [1] ["b", "a"]] ∧
    get_dependency_orderO exC3 =
      some [mkSec "b" [3] [], mkSec "a" [2] [], mkSec "c" [1] ["b", "a"]] ∧
    (∀ y, ¬Reaches (sectionDict (exC3.get_code_sections 5)) "a" y) ∧
    (∀ y, ¬Reaches (sectionDict (exC3.get_code_sections 5)) "b" y) := by
  refine ⟨rfl, by decide, ?_, ?_⟩
  · apply not_reaches_of_no_edge
    rintro y ⟨s, hs, hd⟩
    rw [show dictLookup (sectionDict (exC3.get_code_sections 5)) "a" =
        some (mkSec "a" [2] []) from by decide] at hs
    injection hs with hs
    subst hs
    simp [mkSec] at hd
  · apply not_reaches_of_no_edge
    rintro y ⟨s, hs, hd⟩
    rw [show dictLookup (sectionDict (exC3.get_code_sections 5)) "b" =
        some (mkSec "b" [3] []) from by decide] at hs
    injection hs with hs
    subst hs
    simp [mkSec] at hd

/-- C3 witness: two independent eligible sections with distinct pages in
page order are emitted in that (equally: original) order. -/
theorem C3_witness :
    get_dependency_orderO exTwo =
      some [mkSec "p" [1] [], mkSec "q" [2] []] := by
  have h := C3_page_order_not_document_order.2.2 exTwo (by decide) (by decide)
  rw [h]
  decide

/-! ## Theorems: C5 and C6 — topological order and cycle tolerance -/

/-- C5 (confirmed): for distinct eligible ids and an acyclic dependency
graph, the orderer terminates, emits exactly the eligible sections
exactly once each, and emits every eligible dependency of a section
before that section; on the §8 chain `A -> [], B -> [A], C -> [B]` it
emits exactly `[A, B, C]`. -/
theorem C5_acyclic_topological_order :
    (∀ a : LectureAnalysis,
      ((a.get_code_sections 5).map Section.section_id).Nodup →
      (∀ x, ¬Reaches (sectionDict (a.get_code_sections 5)) x x) →
      ∃ ordered, get_dependency_orderO a = some ordered ∧
        (∀ s ∈ a.get_code_sections 5, ordered.count s = 1) ∧
        (∀ s ∈ ordered, s ∈ a.get_code_sections 5) ∧
        (∀ l1 s l2, ordered = l1 ++ s :: l2 → ∀ d ∈ s.dependencies,
          d ∈ (a.get_code_sections 5).map Section.section_id →
          d ∈ l1.map Section.section_id))
  ∧ get_dependency_orderO exABC =
      some [mkSec "a" [1] [], mkSec "b" [2] ["a"], mkSec "c" [3] ["b"]] := by
  constructor
  · intro a hnd hacyc
    obtain ⟨ordered, heq, hmem, hcnt, htopo⟩ := dep_order_exactly_once a hnd
    refine ⟨ordered, heq, hcnt, hmem, ?_⟩
    intro l1 s l2 hdec d hd hdk
    have hdk2 : d ∈ keysOf (sectionDict (a.get_code_sections 5)) := by
      rw [keysOf_sectionDict]
      exact hdk
    rcases htopo l1 s l2 hdec d hd hdk2 with h5 | h5
    · exact h5
    · exfalso
      have hs : s ∈ ordered := hdec ▸ (by simp)
      have hedge : depEdge (sectionDict (a.get_code_sections 5))
          s.section_id d :=
        ⟨s, dictLookup_sectionDict_of_nodup _ hnd s (hmem s hs), hd⟩
      exact hacyc d (h5.tail hedge)
  · decide

/-- C5 witness: the general statement applied to the acyclic chain
`exABC`, acyclicity discharged through an explicit rank function. -/
theorem C5_witness :
    ∃ ordered, get_dependency_orderO exABC = some ordered ∧
      (∀ s ∈ exABC.get_code_sections 5, ordered.count s = 1) ∧
      (∀ s ∈ ordered, s ∈ exABC.get_code_sections 5) ∧
      (∀ l1 s l2, ordered = l1 ++ s :: l2 → ∀ d ∈ s.dependencies,
        d ∈ (exABC.get_code_sections 5).map Section.section_id →
        d ∈ l1.map Section.section_id) := by
  apply C5_acyclic_topological_order.1 exABC (by decide)
  apply no_cycle_of_rank _
    (fun s => if s = "a" then 0 else if s = "b" then 1 else 2)
  rintro x y ⟨s, hs, hd⟩
  rw [show sectionDict (exABC.get_code_sections 5) =
      [("a", mkSec "a" [1] []), ("b", mkSec "b" [2] ["a"]),
        ("c", mkSec "c" [3] ["b"])] from by decide] at hs
  simp only [dictLookup, List.foldl_cons, List.foldl_nil] at hs
  split_ifs at hs with h1 h2 h3
  · injection hs with hs2
    subst hs2
    simp only [mkSec, List.mem_singleton] at hd
    subst hd
    subst h1
    decide
  · injection hs with hs2
    subst hs2
    simp only [mkSec, List.mem_singleton] at hd
    subst hd
    subst h2
    decide
  · injection hs with hs2
    subst hs2
    simp [mkSec] at hd

/-- C6 (confirmed, for distinct eligible ids): on any eligible section
set — dangling dependency ids and dependency cycles included — the
recursion terminates (the fuelled model never exhausts its budget, so
`some` is always returned), every emitted section is eligible, and every
eligible section is emitted exactly once. -/
theorem C6_cycle_tolerant_termination (a : LectureAnalysis)
    (hnd : ((a.get_code_sections 5).map Section.section_id).Nodup) :
    ∃ ordered, get_dependency_orderO a = some ordered ∧
      (∀ s ∈ ordered, s ∈ a.get_code_sections 5) ∧
      (∀ s ∈ a.get_code_sections 5, ordered.count s = 1) := by
  obtain ⟨ordered, heq, hmem, hcnt, _⟩ := dep_order_exactly_once a hnd
  exact ⟨ordered, heq, hmem, hcnt⟩

/-- C6 witness: the cyclic pair with a dangling dependency id terminates
and emits both sections exactly once. -/
theorem C6_witness :
    ∃ ordered, get_dependency_orderO exCyc = some ordered ∧
      (∀ s ∈ ordered, s ∈ exCyc.get_code_sections 5) ∧
      (∀ s ∈ exCyc.get_code_sections 5, ordered.count s = 1) :=
  C6_cycle_tolerant_termination exCyc (by decide)

/-! ## Theorems: C1 and C2 — notebook generation against its own contract -/

/-- C1 (code bug): with `min_priority = 4`, the single section of
`exPrio4` (`has_code = true`, `priority = 4`) is eligible —
`get_code_sections 4` returns it — yet `generate_notebook_from_analysis`
raises the no-code-sections `ValueError` (modelled as `none`), because it
intersects with `get_dependency_order`, which always filters at the
default threshold 5.  The claim (and the function's own docstring) says
the eligible set is `has_code ∧ priority ≥ min_priority` and the error is
raised only when that set is empty. -/
theorem C1_min_priority_below_default_dropped :
    exPrio4.get_code_sections 4 = [mkSec "s" [1] [] 4] ∧
    generate_notebook_from_analysis (fun _ => some "# %%\npass") exPrio4
      NotebookType.instructor 4 = none :=
  ⟨by decide, by decide⟩

/-- C2 (code bug): when the per-section generation call fails for every
eligible section (`gen` constantly `none` on the one-section analysis of
`tests/test_generation_errors.py`), the run does not raise — it writes a
notebook containing only the synthetic title cell.  The spec and the
repository's own test demand a
`ValueError("Failed to generate any sections")` and no output file. -/
theorem C2_all_sections_fail_still_writes_notebook :
    generate_notebook_from_analysis (fun _ => none) exIntro
      NotebookType.instructor 5 =
      some [Cell.markdown
        "# Sample Lecture\n\nThis notebook contains code-focused examples from the lecture.\nRun each cell in order to explore the concepts."] := by
  decide

end NotebookMaker
